import Mathlib

/-!
Verification of the mystock feature-engineering core: a shallow embedding of
`src/features/technical.py` (class `TechnicalIndicators`) and
`src/preprocessing/processor.py` (class `DataProcessor`), together with
theorems settling the behavioural claims about the indicator engine and the
feature preprocessor.

Numeric cells are modelled as IEEE-754 doubles restricted to the values this
pipeline can produce: a finite rational, positive or negative infinity, or
NaN.  pandas uses NaN both as its missing-value sentinel and as the result of
undefined arithmetic (0/0, inf − inf), so the embedding follows IEEE
semantics for these operations.  Signed zero is not modelled; no computation
in scope distinguishes it.
-/

namespace MyStock

/-- Model of a pandas/numpy float64 cell: NaN (also the missing-value
sentinel), positive infinity, negative infinity, or a finite value. -/
inductive FVal where
  | nan : FVal
  | pinf : FVal
  | ninf : FVal
  | num : ℚ → FVal
deriving DecidableEq, Repr

/-- IEEE negation. -/
def fneg : FVal → FVal
  | .nan => .nan
  | .pinf => .ninf
  | .ninf => .pinf
  | .num a => .num (-a)

/-- IEEE addition: NaN propagates, opposite infinities give NaN. -/
def fadd : FVal → FVal → FVal
  | .nan, _ => .nan
  | _, .nan => .nan
  | .pinf, .ninf => .nan
  | .ninf, .pinf => .nan
  | .pinf, _ => .pinf
  | _, .pinf => .pinf
  | .ninf, _ => .ninf
  | _, .ninf => .ninf
  | .num a, .num b => .num (a + b)

/-- IEEE subtraction. -/
def fsub (a b : FVal) : FVal := fadd a (fneg b)

/-- IEEE multiplication: NaN propagates, infinity times zero is NaN. -/
def fmul : FVal → FVal → FVal
  | .nan, _ => .nan
  | _, .nan => .nan
  | .pinf, .pinf => .pinf
  | .pinf, .ninf => .ninf
  | .ninf, .pinf => .ninf
  | .ninf, .ninf => .pinf
  | .pinf, .num b => if 0 < b then .pinf else if b < 0 then .ninf else .nan
  | .num a, .pinf => if 0 < a then .pinf else if a < 0 then .ninf else .nan
  | .ninf, .num b => if 0 < b then .ninf else if b < 0 then .pinf else .nan
  | .num a, .ninf => if 0 < a then .ninf else if a < 0 then .pinf else .nan
  | .num a, .num b => .num (a * b)

/-- IEEE division: NaN propagates, inf/inf and 0/0 are NaN, a nonzero finite
value divided by zero is a signed infinity, a finite value divided by an
infinity is zero. -/
def fdiv : FVal → FVal → FVal
  | .nan, _ => .nan
  | _, .nan => .nan
  | .pinf, .pinf => .nan
  | .pinf, .ninf => .nan
  | .ninf, .pinf => .nan
  | .ninf, .ninf => .nan
  | .pinf, .num b => if b < 0 then .ninf else .pinf
  | .ninf, .num b => if b < 0 then .pinf else .ninf
  | .num _, .pinf => .num 0
  | .num _, .ninf => .num 0
  | .num a, .num b =>
      if b = 0 then (if 0 < a then .pinf else if a < 0 then .ninf else .nan)
      else .num (a / b)

/-- IEEE comparison of a float against a finite scalar, as used by pandas
boolean masks: every comparison with NaN is false. -/
def fgt (x : FVal) (q : ℚ) : Bool :=
  match x with
  | .nan => false
  | .pinf => true
  | .ninf => false
  | .num a => decide (q < a)

/-- The window `Series.rolling(window=n)` inspects at index `i`: the up-to-`n`
trailing elements of the series ending at (and including) index `i`. -/
def windowAt (n : Nat) (xs : List ℚ) (i : Nat) : List ℚ :=
  (xs.take (i + 1)).drop (i + 1 - n)

/-- `Series.rolling(window=n).mean()` over an all-finite series: NaN while
fewer than `n` observations exist (pandas defaults `min_periods` to the
window size), the mean of the trailing `n`-window afterwards. -/
def rollingMean (n : Nat) (xs : List ℚ) : List FVal :=
  (List.range xs.length).map fun i =>
    if i + 1 < n then FVal.nan else FVal.num ((windowAt n xs i).sum / (n : ℚ))

/-- Minimum of a list of rationals (the empty case is unreachable for the
nonempty rolling windows this is applied to). -/
def listMin : List ℚ → ℚ
  | [] => 0
  | a :: t => t.foldl min a

/-- Maximum of a list of rationals (empty case unreachable, as for
`listMin`). -/
def listMax : List ℚ → ℚ
  | [] => 0
  | a :: t => t.foldl max a

/-- `Series.rolling(window=n).min()`. -/
def rollingMin (n : Nat) (xs : List ℚ) : List FVal :=
  (List.range xs.length).map fun i =>
    if i + 1 < n then FVal.nan else FVal.num (listMin (windowAt n xs i))

/-- `Series.rolling(window=n).max()`. -/
def rollingMax (n : Nat) (xs : List ℚ) : List FVal :=
  (List.range xs.length).map fun i =>
    if i + 1 < n then FVal.nan else FVal.num (listMax (windowAt n xs i))

/-- `TechnicalIndicators.calculate_ma` (technical.py line 47), one configured
period: the `ma_N` column is `df['close'].rolling(window=N).mean()`.  The
source loops this assignment over every configured period; each column
depends only on its own period. -/
def calculate_ma (period : Nat) (close : List ℚ) : List FVal :=
  rollingMean period close

/-- Claim C1: for every close series and configured window length `N ≥ 1`,
the `ma_N` column at 0-based index `i` (from oldest) equals the arithmetic
mean of `close[i-N+1..i]` when `i ≥ N-1`, and is NaN — the missing value,
distinct from zero — when `i < N-1`. -/
theorem C1_ma_rolling_mean (N : Nat) (close : List ℚ) (hN : 1 ≤ N)
    (i : Nat) (hi : i < close.length) :
    (N - 1 ≤ i →
      (calculate_ma N close).getD i FVal.nan
        = FVal.num (((close.drop (i + 1 - N)).take N).sum / (N : ℚ)))
    ∧ (i < N - 1 →
      (calculate_ma N close).getD i FVal.nan = FVal.nan
        ∧ FVal.nan ≠ FVal.num 0) := by
  have hget :
      (calculate_ma N close).getD i FVal.nan
        = if i + 1 < N then FVal.nan
          else FVal.num ((windowAt N close i).sum / (N : ℚ)) := by
    have hlen : i < (calculate_ma N close).length := by
      simpa [calculate_ma, rollingMean] using hi
    rw [List.getD_eq_getElem _ _ hlen]
    simp [calculate_ma, rollingMean]
  constructor
  · intro hNi
    have hnot : ¬ i + 1 < N := by omega
    have hwin : windowAt N close i = (close.drop (i + 1 - N)).take N := by
      unfold windowAt
      rw [List.drop_take]
      congr 1
      omega
    rw [hget, if_neg hnot, hwin]
  · intro hiN
    have hlt : i + 1 < N := by omega
    refine ⟨by rw [hget, if_pos hlt], by simp⟩

/-- Witness for C1 at `N = 2`, `close = [1, 2, 4]`, `i = 2`: the `ma_2`
value is `(2 + 4) / 2 = 3`. -/
theorem C1_ma_rolling_mean_witness :
    (calculate_ma 2 [(1 : ℚ), 2, 4]).getD 2 FVal.nan = FVal.num 3 := by
  have h := (C1_ma_rolling_mean 2 [(1 : ℚ), 2, 4] (by decide) 2 (by decide)).1
    (by decide)
  rw [h]
  norm_num

/-- Fitted scaler state: per-column (min, max) bounds, as held by the
`MinMaxScaler` owned by a `DataProcessor`. -/
abbrev Scaler := List (ℚ × ℚ)

/-- State of a `DataProcessor` instance (processor.py lines 11-20) relevant
to scaler persistence: the configured sequence length and the currently held
scaler. -/
structure DataProcessor where
  sequence_length : Nat
  scaler : Scaler
deriving DecidableEq, Repr

/-- `DataProcessor.load_scaler` (processor.py lines 112-117).  The filesystem
is modelled as a map from paths to stored scaler blobs (`none` when no file
exists at the path).  Returns the processor state after the call, paired with
whether the "file does not exist" warning was printed.  The source raises
nothing on a missing file: it only prints the warning and leaves
`self.scaler` untouched. -/
def load_scaler (fs : String → Option Scaler) (st : DataProcessor)
    (path : String) : DataProcessor × Bool :=
  match fs path with
  | some s => ({ st with scaler := s }, false)
  | none => (st, true)

/-- Claim C10: for every path that does not name an existing file,
`load_scaler` does not raise and leaves the held scaler state unchanged,
only emitting a warning; the fitted scaler is replaced exactly when the file
exists. -/
theorem C10_load_scaler (fs : String → Option Scaler) (st : DataProcessor)
    (path : String) :
    (fs path = none → load_scaler fs st path = (st, true))
    ∧ (∀ s, fs path = some s →
        load_scaler fs st path = ({ st with scaler := s }, false)) := by
  constructor
  · intro h
    simp [load_scaler, h]
  · intro s h
    simp [load_scaler, h]

/-- Witness for C10: an empty filesystem and a concrete processor state. -/
theorem C10_load_scaler_witness :
    load_scaler (fun _ => none) ⟨60, []⟩ ("scalers/a.pkl")
      = (⟨60, []⟩, true) :=
  (C10_load_scaler (fun _ => none) ⟨60, []⟩ ("scalers/a.pkl")).1 rfl

/-- `DataProcessor.create_sequences` (processor.py lines 69-87): for `i` in
`range(len(data) - sequence_length)` append the window `data[i : i+L]` to `X`
and `target[i + L]` to `y`.  `Nat` subtraction mirrors Python's
`range` of a non-positive bound producing no iterations. -/
def create_sequences (sequence_length : Nat) (data : List (List ℚ))
    (target : List ℚ) : List (List (List ℚ)) × List ℚ :=
  ((List.range (data.length - sequence_length)).map
      fun i => (data.drop i).take sequence_length,
   (List.range (data.length - sequence_length)).map
      fun i => target.getD (i + sequence_length) 0)

/-- Claim C4: for a feature matrix of `T` rows and window length `L`,
`create_sequences` produces exactly `T − L` windows when `T > L` (window `i`
covering rows `[i, i+L)` and pairing with the target at row `i + L`) and
zero windows — not an error — when `T ≤ L`; in particular `T = 100`,
`L = 60` yields exactly 40 windows. -/
theorem C4_create_sequences (L : Nat) (data : List (List ℚ))
    (target : List ℚ) :
    (L < data.length → (create_sequences L data target).1.length = data.length - L)
    ∧ (data.length ≤ L → (create_sequences L data target).1.length = 0)
    ∧ (∀ i, i < data.length - L →
        (create_sequences L data target).1.getD i [] = (data.drop i).take L
        ∧ (create_sequences L data target).2.getD i 0 = target.getD (i + L) 0)
    ∧ (data.length = 100 → L = 60 → (create_sequences L data target).1.length = 40) := by
  refine ⟨?_, ?_, ?_, ?_⟩
  · intro _
    simp [create_sequences]
  · intro h
    simp [create_sequences]
    omega
  · intro i hilt
    have h1 : i < ((List.range (data.length - L)).map
        fun i => (data.drop i).take L).length := by simpa using hilt
    have h2 : i < ((List.range (data.length - L)).map
        fun i => target.getD (i + L) 0).length := by simpa using hilt
    constructor
    · rw [show (create_sequences L data target).1
          = (List.range (data.length - L)).map (fun i => (data.drop i).take L) from rfl]
      rw [List.getD_eq_getElem _ _ h1]
      simp
    · rw [show (create_sequences L data target).2
          = (List.range (data.length - L)).map (fun i => target.getD (i + L) 0) from rfl]
      rw [List.getD_eq_getElem _ _ h2]
      simp
  · intro hT hL
    simp [create_sequences, hT, hL]

/-- Witness for C4 at `L = 2`, three data rows: one window covering rows
`[0, 2)` paired with the target at row 2. -/
theorem C4_create_sequences_witness :
    (create_sequences 2 [[(1 : ℚ)], [2], [3]] [(10 : ℚ), 20, 30]).1.getD 0 []
      = [[(1 : ℚ)], [2]]
    ∧ (create_sequences 2 [[(1 : ℚ)], [2], [3]] [(10 : ℚ), 20, 30]).2.getD 0 0
      = 30 := by
  have h := (C4_create_sequences 2 [[(1 : ℚ)], [2], [3]]
    [(10 : ℚ), 20, 30]).2.2.1 0 (by decide)
  exact ⟨by rw [h.1]; rfl, by rw [h.2]; rfl⟩

/-- Required input columns of `calculate_all_indicators`
(technical.py line 284). -/
def required_cols : List String := ["close", "high", "low", "volume"]

/-- Column renaming applied by `calculate_all_indicators` on entry
(technical.py lines 277-281): `trade_date → date`, `vol → volume`. -/
def renameCols (cols : List String) : List String :=
  cols.map fun c =>
    if c = "trade_date" then "date" else if c = "vol" then "volume" else c

/-- The `missing_cols` list computed at technical.py line 285: required
columns absent from the (already renamed) frame. -/
def missing_cols (cols : List String) : List String :=
  required_cols.filter fun c => decide (c ∉ cols)

/-- Column-level model of `TechnicalIndicators.calculate_all_indicators`
(technical.py lines 263-314): the frame is copied, alias columns are renamed,
then the required columns are validated — a `ValueError` naming the missing
columns is raised before any indicator computation when the check fails.  On
success every indicator column (abstracted here as the parameter
`indicatorCols`, since the concrete names depend on the configured periods)
is appended to the renamed frame's columns. -/
def calculate_all_indicators_cols (indicatorCols : List String)
    (cols : List String) : Except (List String) (List String) :=
  let renamed := renameCols cols
  if missing_cols renamed = [] then Except.ok (renamed ++ indicatorCols)
  else Except.error (missing_cols renamed)

/-- Counterexample to claim C6 as stated: the input columns
`[close, high, low, vol]` do not contain the required column `volume`, yet
`calculate_all_indicators` raises no error — the alias renaming `vol →
volume` runs before validation. -/
theorem C6_counterexample :
    ("volume" ∉ (["close", "high", "low", "vol"] : List String))
    ∧ calculate_all_indicators_cols [] ["close", "high", "low", "vol"]
        = Except.ok ["close", "high", "low", "volume"] := by
  constructor
  · decide
  · rfl

/-- Claim C6 as amended: `calculate_all_indicators` raises a validation error
naming exactly the missing columns, before computing any indicator, if and
only if one of the required columns `{close, high, low, volume}` is absent
after the alias renaming (`trade_date → date`, `vol → volume`) has been
applied to the input's columns; on success the output carries the renamed
input columns plus the indicator columns (never partial output). -/
theorem C6_validation (indicatorCols cols : List String) :
    ((∃ e, calculate_all_indicators_cols indicatorCols cols = Except.error e)
      ↔ ∃ c ∈ required_cols, c ∉ renameCols cols)
    ∧ (∀ e, calculate_all_indicators_cols indicatorCols cols = Except.error e →
        e = missing_cols (renameCols cols))
    ∧ (missing_cols (renameCols cols) = [] →
        calculate_all_indicators_cols indicatorCols cols
          = Except.ok (renameCols cols ++ indicatorCols)) := by
  have hiff : missing_cols (renameCols cols) = []
      ↔ ∀ c ∈ required_cols, c ∈ renameCols cols := by
    unfold missing_cols
    rw [List.filter_eq_nil_iff]
    constructor
    · intro h c hc
      have := h c hc
      simpa using this
    · intro h c hc
      simpa using h c hc
  refine ⟨?_, ?_, ?_⟩
  · constructor
    · rintro ⟨e, he⟩
      by_contra hno
      push_neg at hno
      have hnil : missing_cols (renameCols cols) = [] := hiff.mpr hno
      unfold calculate_all_indicators_cols at he
      rw [if_pos hnil] at he
      exact Except.noConfusion he
    · rintro ⟨c, hc, hnot⟩
      have hne : missing_cols (renameCols cols) ≠ [] := by
        intro h
        exact hnot (hiff.mp h c hc)
      refine ⟨missing_cols (renameCols cols), ?_⟩
      unfold calculate_all_indicators_cols
      rw [if_neg hne]
  · intro e he
    unfold calculate_all_indicators_cols at he
    by_cases hnil : missing_cols (renameCols cols) = []
    · rw [if_pos hnil] at he
      exact Except.noConfusion he
    · rw [if_neg hnil] at he
      exact (Except.error.injEq _ _).mp he.symm
  · intro hnil
    unfold calculate_all_indicators_cols
    rw [if_pos hnil]

/-- Witness for C6 (amended): with the table supplying only `close` and
`high`, the call errors naming `low` and `volume` as missing. -/
theorem C6_validation_witness :
    calculate_all_indicators_cols [] ["close", "high"]
      = Except.error ["low", "volume"] := by
  have h := (C6_validation [] ["close", "high"]).1.mpr
    ⟨"low", by decide, by decide⟩
  obtain ⟨e, he⟩ := h
  have he2 := (C6_validation [] ["close", "high"]).2.1 e he
  rw [he2] at he
  rw [he]
  rfl

/-- Claim C9: `calculate_all_indicators` renames `trade_date → date` and
`vol → volume` before validating, so an input table supplying `vol` (and the
remaining required columns) but no `volume` column passes validation and the
indicators are computed over the renamed columns rather than a
missing-column error being raised. -/
theorem C9_alias_renaming (indicatorCols cols : List String)
    (hvol : "vol" ∈ cols) (hclose : "close" ∈ cols)
    (hhigh : "high" ∈ cols) (hlow : "low" ∈ cols) :
    "volume" ∈ renameCols cols
    ∧ calculate_all_indicators_cols indicatorCols cols
        = Except.ok (renameCols cols ++ indicatorCols)
    ∧ ("trade_date" ∈ cols → "date" ∈ renameCols cols) := by
  have hmem : ∀ c ∈ cols, c ≠ "trade_date" → c ≠ "vol" → c ∈ renameCols cols := by
    intro c hc h1 h2
    unfold renameCols
    refine List.mem_map.mpr ⟨c, hc, ?_⟩
    rw [if_neg h1, if_neg h2]
  have hvolume : "volume" ∈ renameCols cols := by
    unfold renameCols
    exact List.mem_map.mpr ⟨"vol", hvol, by rfl⟩
  have hnil : missing_cols (renameCols cols) = [] := by
    unfold missing_cols
    rw [List.filter_eq_nil_iff]
    intro c hc
    simp only [decide_eq_true_eq, not_not]
    have : c = "close" ∨ c = "high" ∨ c = "low" ∨ c = "volume" := by
      simpa [required_cols] using hc
    rcases this with h | h | h | h
    · exact h ▸ hmem "close" hclose (by decide) (by decide)
    · exact h ▸ hmem "high" hhigh (by decide) (by decide)
    · exact h ▸ hmem "low" hlow (by decide) (by decide)
    · exact h ▸ hvolume
  refine ⟨hvolume, ?_, ?_⟩
  · unfold calculate_all_indicators_cols
    rw [if_pos hnil]
  · intro htd
    unfold renameCols
    exact List.mem_map.mpr ⟨"trade_date", htd, by rfl⟩

/-- Witness for C9: the concrete columns `[trade_date, close, high, low,
vol]` pass validation, and the frame the indicators are computed from
carries `date` and `volume`. -/
theorem C9_alias_renaming_witness :
    "volume" ∈ renameCols ["trade_date", "close", "high", "low", "vol"]
    ∧ calculate_all_indicators_cols ["ma_5"]
          ["trade_date", "close", "high", "low", "vol"]
        = Except.ok ["date", "close", "high", "low", "volume", "ma_5"]
    ∧ ("trade_date" ∈ (["trade_date", "close", "high", "low", "vol"] : List String)
        → "date" ∈ renameCols ["trade_date", "close", "high", "low", "vol"]) := by
  have h := C9_alias_renaming ["ma_5"] ["trade_date", "close", "high", "low", "vol"]
    (by decide) (by decide) (by decide) (by decide)
  exact ⟨h.1, by rw [h.2.1]; rfl, h.2.2⟩

/-- A table cell as relevant to the preprocessing frame effects: a finite
numeric value, a missing value (NaN), or a non-numeric value that
`pd.to_numeric` cannot coerce.  Numeric-looking strings, which `to_numeric`
would parse, are represented as `num` directly. -/
inductive Cell where
  | num : ℚ → Cell
  | na : Cell
  | text : Cell
deriving DecidableEq, Repr

/-- `pd.to_numeric(col, errors='coerce')` cellwise: numeric and missing
cells are unchanged, non-coercible values become NaN. -/
def to_numeric : Cell → Cell
  | .num q => .num q
  | .na => .na
  | .text => .na

/-- A DataFrame as a column-ordered association of column names to cell
columns. -/
abbrev Table := List (String × List Cell)

/-- Columns excluded from the feature set by `prepare_features`
(processor.py line 59). -/
def exclude_cols : List String :=
  ["trade_date", "ts_code", "date", "symbol", "code", "name"]

/-- `DataProcessor.prepare_features` (processor.py lines 47-67) as a state
transformer on the caller's frame.  The method takes no copy: the loop
`df[col] = pd.to_numeric(df[col], errors='coerce')` writes every
non-excluded column back into the very frame the caller passed in.  Returns
(caller's frame after the call, (selected feature frame, feature column
names)). -/
def prepare_features (df : Table) : Table × (Table × List String) :=
  let feature_cols := (df.map Prod.fst).filter fun c => decide (c ∉ exclude_cols)
  let coerced := df.map fun col =>
    if col.1 ∈ exclude_cols then col else (col.1, col.2.map to_numeric)
  (coerced, (coerced.filter fun col => decide (col.1 ∉ exclude_cols), feature_cols))

/-- Caller-visible state of `df` after
`TechnicalIndicators.calculate_all_indicators(df)`: line 274 `df = df.copy()`
rebinds the local name to a copy before any column is written, so the
caller's frame is untouched and the enriched frame is a new table. -/
def calculate_all_indicators_frame (df : Table) : Table := df

/-- Caller-visible state of `df` after `DataProcessor.clean_data(df)`:
line 32 `df = df.copy()` precedes every fill, so the caller's frame is
untouched. -/
def clean_data_frame (df : Table) : Table := df

/-- Caller-visible state of `df` after `DataProcessor.generate_labels(df)`:
line 131 `df = df.copy()` precedes the label columns, so the caller's frame
is untouched. -/
def generate_labels_frame (df : Table) : Table := df

/-- Caller-visible state of `df` after `DataProcessor.normalize_data(df)`:
the method only reads `df` (`fit_transform`/`transform`) and builds a fresh
`pd.DataFrame` from the scaled array (line 105). -/
def normalize_data_frame (df : Table) : Table := df

/-- Caller-visible state of the inputs after
`DataProcessor.create_sequences(data, target)`: the method only reads and
slices its arguments. -/
def create_sequences_frame (df : Table) : Table := df

/-- Caller-visible state of `df` after `DataProcessor.prepare_features(df)`:
the first component of the state-transformer model. -/
def prepare_features_frame (df : Table) : Table := (prepare_features df).1

/-- A list equals its image under `f` exactly when `f` fixes every member. -/
lemma list_map_eq_self {α : Type} (f : α → α) :
    ∀ l : List α, (l.map f = l ↔ ∀ x ∈ l, f x = x) := by
  intro l
  induction l with
  | nil => simp
  | cons a t ih =>
      simp only [List.map_cons, List.cons.injEq, List.mem_cons]
      constructor
      · rintro ⟨ha, ht⟩ x hx
        rcases hx with h | h
        · exact h ▸ ha
        · exact (ih.mp ht) x h
      · intro h
        exact ⟨h a (Or.inl rfl), ih.mpr fun x hx => h x (Or.inr hx)⟩

/-- Counterexample to claim C8 as stated: `prepare_features` does mutate the
caller's table — a non-numeric cell in a non-excluded column (`remark`) is
overwritten with NaN in the caller's frame. -/
theorem C8_counterexample :
    prepare_features_frame [("close", [Cell.num 1]), ("remark", [Cell.text])]
      ≠ [("close", [Cell.num 1]), ("remark", [Cell.text])] := by
  decide

/-- Claim C8 as amended: the Indicator Engine entry point and every
Preprocessor operation except `prepare_features` leave the caller's table
unmodified, operating on and returning a new/derived table;
`prepare_features` instead writes the numeric coercion of every non-excluded
column back into the caller's table, leaving it unmodified exactly when no
non-excluded column holds a non-coercible value. -/
theorem C8_frame_effects (df : Table) :
    calculate_all_indicators_frame df = df
    ∧ clean_data_frame df = df
    ∧ generate_labels_frame df = df
    ∧ normalize_data_frame df = df
    ∧ create_sequences_frame df = df
    ∧ prepare_features_frame df
        = df.map (fun col =>
            if col.1 ∈ exclude_cols then col else (col.1, col.2.map to_numeric))
    ∧ (prepare_features_frame df = df ↔
        ∀ col ∈ df, col.1 ∉ exclude_cols → ∀ c ∈ col.2, c ≠ Cell.text) := by
  refine ⟨rfl, rfl, rfl, rfl, rfl, rfl, ?_⟩
  unfold prepare_features_frame prepare_features
  simp only []
  rw [list_map_eq_self]
  constructor
  · intro h col hcol hnotex c hc hctext
    have := h col hcol
    rw [if_neg hnotex] at this
    have hcells : col.2.map to_numeric = col.2 := by
      have := congrArg Prod.snd this
      simpa using this
    have := (list_map_eq_self to_numeric col.2).mp hcells c hc
    rw [hctext] at this
    exact Cell.noConfusion this
  · intro h col hcol
    by_cases hex : col.1 ∈ exclude_cols
    · rw [if_pos hex]
    · rw [if_neg hex]
      have hcells : col.2.map to_numeric = col.2 := by
        rw [list_map_eq_self]
        intro c hc
        have := h col hcol hex c hc
        cases c with
        | num q => rfl
        | na => rfl
        | text => exact absurd rfl this
      rw [hcells]

/-- `Series.shift(-days)`: index `t` holds the value from index `t + days`,
NaN once `t + days` runs past the end. -/
def shiftNeg (days : Nat) (xs : List ℚ) : List FVal :=
  (List.range xs.length).map fun t =>
    if h : t + days < xs.length then FVal.num xs[t + days] else FVal.nan

/-- The `future_return_{days}d` column of `DataProcessor.generate_labels`
(processor.py line 134): `close.shift(-days) / close - 1`. -/
def future_return (days : Nat) (close : List ℚ) : List FVal :=
  (List.range close.length).map fun t =>
    fsub (fdiv ((shiftNeg days close).getD t FVal.nan)
               (FVal.num (close.getD t 0)))
         (FVal.num 1)

/-- `DataProcessor.generate_labels` (processor.py lines 119-142) restricted
to the close column: add `future_return_{days}d`, add
`label = (future_return > threshold).astype(int)` (a NaN comparison is
false, so the tail rows get label 0 before being dropped), then
`dropna(subset=[future_return])` removes exactly the rows whose forward
return is NaN.  Each surviving row is (close, forward return, label). -/
def generate_labels (days : Nat) (threshold : ℚ) (close : List ℚ) :
    List (ℚ × FVal × Nat) :=
  let fr := future_return days close
  let rows := (List.range close.length).map fun t =>
    (close.getD t 0, fr.getD t FVal.nan,
     if fgt (fr.getD t FVal.nan) threshold then 1 else 0)
  rows.filter fun r => decide (r.2.1 ≠ FVal.nan)

/-- A filter whose predicate holds exactly on the first `k` positions is a
prefix extraction. -/
lemma filter_eq_take {α : Type} (p : α → Bool) :
    ∀ (l : List α) (k : Nat),
      (∀ i (h : i < l.length), (p (l.get ⟨i, h⟩) = true ↔ i < k)) →
      l.filter p = l.take k := by
  intro l
  induction l with
  | nil => intro k _; simp
  | cons a t ih =>
      intro k hk
      cases k with
      | zero =>
          have ha : p a = false := by
            have := hk 0 (by simp)
            simp at this
            simpa using this
          have ht : t.filter p = [] := by
            rw [List.filter_eq_nil_iff]
            intro x hx
            obtain ⟨i, hi, rfl⟩ := List.mem_iff_get.mp hx
            have h2 := hk (i + 1) (Nat.succ_lt_succ i.isLt)
            intro hp
            have : (i : Nat) + 1 < 0 := h2.mp hp
            omega
          simp [List.filter_cons, ha, ht]
      | succ k =>
          have ha : p a = true := by
            have := hk 0 (by simp)
            simpa using this.mpr (Nat.succ_pos k)
          have ht : t.filter p = t.take k := by
            refine ih k ?_
            intro i hi
            have := hk (i + 1) (by simpa using Nat.succ_lt_succ hi)
            simpa [Nat.succ_lt_succ_iff] using this
          simp [List.filter_cons, ha, ht]

/-- Evaluation of the forward-return column on an all-positive close
series: defined (and equal to `close[t+days]/close[t] - 1`) exactly when
`t + days` is in range, NaN on the final `days` rows. -/
lemma future_return_getD (days : Nat) (close : List ℚ)
    (hpos : ∀ c ∈ close, 0 < c) (t : Nat) (ht : t < close.length) :
    (future_return days close).getD t FVal.nan
      = if t + days < close.length
        then FVal.num (close.getD (t + days) 0 / close.getD t 0 - 1)
        else FVal.nan := by
  have hlen : t < (future_return days close).length := by
    simpa [future_return] using ht
  rw [List.getD_eq_getElem _ _ hlen]
  have hct : 0 < close.getD t 0 := by
    refine hpos _ ?_
    rw [List.getD_eq_getElem _ _ ht]
    exact List.getElem_mem ht
  have hshift : (shiftNeg days close).getD t FVal.nan
      = if h : t + days < close.length then FVal.num close[t + days]
        else FVal.nan := by
    have hlen2 : t < (shiftNeg days close).length := by
      simpa [shiftNeg] using ht
    rw [List.getD_eq_getElem _ _ hlen2]
    simp [shiftNeg]
  simp only [future_return, List.getElem_map, List.getElem_range]
  rw [hshift]
  by_cases h : t + days < close.length
  · rw [dif_pos h, if_pos h]
    have hne : close.getD t 0 ≠ 0 := ne_of_gt hct
    have hq : close[t + days] = close.getD (t + days) 0 :=
      (List.getD_eq_getElem _ _ h).symm
    rw [hq]
    simp only [fdiv, fsub, fneg, fadd, if_neg hne]
    rw [sub_eq_add_neg]
  · rw [dif_neg h, if_neg h]
    simp [fdiv, fsub, fadd, fneg]

/-- Claim C3: for every table of positive close prices, horizon `H` and
threshold `θ`, `generate_labels` keeps exactly the rows with a valid forward
target (the final `H` rows are dropped, not defaulted), computes the forward
return `close[t+H]/close[t] − 1` for each surviving row `t`, and labels it 1
exactly when the forward return exceeds `θ`, else 0. -/
theorem C3_generate_labels (days : Nat) (threshold : ℚ) (close : List ℚ)
    (hpos : ∀ c ∈ close, 0 < c) :
    (generate_labels days threshold close).length = close.length - days
    ∧ ∀ t, t < close.length - days →
        (generate_labels days threshold close).getD t (0, FVal.nan, 0)
          = (close.getD t 0,
             FVal.num (close.getD (t + days) 0 / close.getD t 0 - 1),
             if threshold < close.getD (t + days) 0 / close.getD t 0 - 1
             then 1 else 0) := by
  have hrows :
      generate_labels days threshold close
        = ((List.range close.length).map fun t =>
            ((close.getD t 0, (future_return days close).getD t FVal.nan,
              if fgt ((future_return days close).getD t FVal.nan) threshold
              then 1 else 0) : ℚ × FVal × Nat)).take (close.length - days) := by
    unfold generate_labels
    refine filter_eq_take _ _ _ ?_
    intro i hi
    have hlt : i < close.length := by simpa using hi
    have hval := future_return_getD days close hpos i hlt
    simp only [List.get_eq_getElem, List.getElem_map, List.getElem_range]
    rw [hval]
    by_cases h : i + days < close.length
    · rw [if_pos h]
      simp only [decide_eq_true_eq]
      constructor
      · intro _; omega
      · intro _; exact fun hcon => FVal.noConfusion hcon
    · rw [if_neg h]
      simp only [decide_eq_true_eq]
      constructor
      · intro hcon; exact absurd rfl hcon
      · intro hcon; omega
  have htake :
      ((List.range close.length).map fun t =>
          ((close.getD t 0, (future_return days close).getD t FVal.nan,
            if fgt ((future_return days close).getD t FVal.nan) threshold
            then 1 else 0) : ℚ × FVal × Nat)).take (close.length - days)
        = (List.range (close.length - days)).map fun t =>
            ((close.getD t 0, (future_return days close).getD t FVal.nan,
              if fgt ((future_return days close).getD t FVal.nan) threshold
              then 1 else 0) : ℚ × FVal × Nat) := by
    rw [← List.map_take, List.take_range, Nat.min_eq_left (Nat.sub_le _ _)]
  constructor
  · rw [hrows, htake]
    simp
  · intro t htd
    have hlt : t < close.length := by omega
    have hin : t + days < close.length := by omega
    have hlen : t < ((List.range (close.length - days)).map fun t =>
        ((close.getD t 0, (future_return days close).getD t FVal.nan,
          if fgt ((future_return days close).getD t FVal.nan) threshold
          then 1 else 0) : ℚ × FVal × Nat)).length := by
      simpa using htd
    rw [hrows, htake, List.getD_eq_getElem _ _ hlen]
    simp only [List.getElem_map, List.getElem_range]
    rw [future_return_getD days close hpos t hlt, if_pos hin]
    simp [fgt]

/-- Witness for C3 at `close = [1, 2]`, `H = 1`, `θ = 0`: one surviving row,
forward return 1, label 1 (and the final row is dropped). -/
theorem C3_generate_labels_witness :
    (generate_labels 1 0 [(1 : ℚ), 2]).length = 1
    ∧ (generate_labels 1 0 [(1 : ℚ), 2]).getD 0 (0, FVal.nan, 0)
        = (1, FVal.num 1, 1) := by
  have h := C3_generate_labels 1 0 [(1 : ℚ), 2] (by decide)
  refine ⟨by simpa using h.1, ?_⟩
  have h2 := h.2 0 (by decide)
  rw [h2]
  norm_num

/-- Body of the OBV loop (technical.py lines 213-219), continued from a
running total `prev` and the previous row's close `cprev`: each row adds its
volume when close rose, subtracts it when close fell, and repeats the total
when close is flat. -/
def obvFrom (prev cprev : ℚ) : List (ℚ × ℚ) → List ℚ
  | [] => []
  | (c, v) :: rest =>
      let cur := if cprev < c then prev + v
                 else if c < cprev then prev - v else prev
      cur :: obvFrom cur c rest

/-- `TechnicalIndicators.calculate_obv` (technical.py lines 201-223) over
the (close, volume) rows in chronological order: the running total is seeded
with `obv = [0]` before the loop, which starts at the second row. -/
def calculate_obv : List (ℚ × ℚ) → List ℚ
  | [] => [0]
  | (c, _) :: rest => 0 :: obvFrom 0 c rest

/-- Step relation of the OBV scan, expressed positionally. -/
lemma obvFrom_delta :
    ∀ (rows : List (ℚ × ℚ)) (prev cprev : ℚ) (i : Nat), i + 1 < rows.length →
      (obvFrom prev cprev rows).getD (i + 1) 0
        = (obvFrom prev cprev rows).getD i 0
          + (if (rows.getD i (0, 0)).1 < (rows.getD (i + 1) (0, 0)).1
             then (rows.getD (i + 1) (0, 0)).2
             else if (rows.getD (i + 1) (0, 0)).1 < (rows.getD i (0, 0)).1
             then -(rows.getD (i + 1) (0, 0)).2
             else 0) := by
  intro rows
  induction rows with
  | nil => intro prev cprev i h; simp at h
  | cons r rest ih =>
      intro prev cprev i h
      obtain ⟨c, v⟩ := r
      cases i with
      | zero =>
          cases rest with
          | nil => simp at h
          | cons r2 rest2 =>
              obtain ⟨c2, v2⟩ := r2
              simp only [obvFrom, List.getD_cons_succ, List.getD_cons_zero]
              by_cases h1 : c < c2
              · simp [obvFrom, h1, not_lt_of_lt h1]
              · by_cases h2 : c2 < c
                · simp [obvFrom, h1, h2, sub_eq_add_neg]
                · simp [obvFrom, h1, h2]
      | succ i =>
          simp only [obvFrom, List.getD_cons_succ]
          exact ih _ c i (by simpa using h)

/-- The OBV scan is monotone when the close column (prefixed with the
previous close) is non-decreasing and every volume is non-negative. -/
lemma obvFrom_chain :
    ∀ (rows : List (ℚ × ℚ)) (prev cprev : ℚ),
      (∀ r ∈ rows, 0 ≤ r.2) →
      List.Chain' (· ≤ ·) (cprev :: rows.map Prod.fst) →
      List.Chain' (· ≤ ·) (prev :: obvFrom prev cprev rows) := by
  intro rows
  induction rows with
  | nil => intro prev cprev _ _; simp [obvFrom]
  | cons r rest ih =>
      intro prev cprev hvol hchain
      obtain ⟨c, v⟩ := r
      have hcc : cprev ≤ c := by
        rcases List.chain'_cons.mp hchain with ⟨h1, _⟩
        exact h1
      have hv : 0 ≤ v := hvol (c, v) (List.mem_cons_self _ _)
      have hcur : (if cprev < c then prev + v
          else if c < cprev then prev - v else prev)
          = if cprev < c then prev + v else prev := by
        by_cases h1 : cprev < c
        · rw [if_pos h1, if_pos h1]
        · rw [if_neg h1, if_neg (not_lt_of_le hcc), if_neg h1]
      simp only [obvFrom]
      rw [List.chain'_cons]
      constructor
      · rw [hcur]
        by_cases h1 : cprev < c
        · rw [if_pos h1]; linarith
        · rw [if_neg h1]
      · refine ih _ c ?_ ?_
        · intro r hr; exact hvol r (List.mem_cons_of_mem _ hr)
        · rcases List.chain'_cons.mp hchain with ⟨_, h2⟩
          simpa using h2

/-- Claim C5: for every non-empty price series (rows of (close, volume) in
chronological order), the OBV column is seeded at zero at the oldest record;
each step's OBV delta is `+volume`, `−volume`, or `0` according as close
rose, fell, or stayed flat versus the previous close; and — volumes being
non-negative — OBV is monotonically non-decreasing whenever close is
non-decreasing throughout the series. -/
theorem C5_obv (rows : List (ℚ × ℚ)) (hne : rows ≠ []) :
    (calculate_obv rows).getD 0 0 = 0
    ∧ (∀ i, i + 1 < rows.length →
        (calculate_obv rows).getD (i + 1) 0
          = (calculate_obv rows).getD i 0
            + (if (rows.getD i (0, 0)).1 < (rows.getD (i + 1) (0, 0)).1
               then (rows.getD (i + 1) (0, 0)).2
               else if (rows.getD (i + 1) (0, 0)).1 < (rows.getD i (0, 0)).1
               then -(rows.getD (i + 1) (0, 0)).2
               else 0))
    ∧ ((∀ r ∈ rows, 0 ≤ r.2) →
        List.Chain' (· ≤ ·) (rows.map Prod.fst) →
        List.Chain' (· ≤ ·) (calculate_obv rows)) := by
  obtain ⟨⟨c, v⟩, rest, rfl⟩ : ∃ r rest, rows = r :: rest := by
    cases rows with
    | nil => exact absurd rfl hne
    | cons r rest => exact ⟨r, rest, rfl⟩
  refine ⟨rfl, ?_, ?_⟩
  · intro i h
    cases i with
    | zero =>
        cases rest with
        | nil => simp at h
        | cons r2 rest2 =>
            obtain ⟨c2, v2⟩ := r2
            simp only [calculate_obv, obvFrom, List.getD_cons_succ,
              List.getD_cons_zero]
            by_cases h1 : c < c2
            · simp [h1, not_lt_of_lt h1]
            · by_cases h2 : c2 < c
              · simp [h1, h2, sub_eq_add_neg]
              · simp [h1, h2]
    | succ i =>
        simp only [calculate_obv, List.getD_cons_succ]
        exact obvFrom_delta rest 0 c i (by simpa using h)
  · intro hvol hchain
    simp only [calculate_obv]
    refine obvFrom_chain rest 0 c ?_ ?_
    · intro r hr; exact hvol r (List.mem_cons_of_mem _ hr)
    · simpa using hchain

/-- Witness for C5 on the concrete series
`[(1, 5), (2, 7), (2, 3), (3, 4)]`: OBV is `[0, 7, 7, 11]`, seeded at zero,
rising by the volume on up-days, flat on flat days, and non-decreasing. -/
theorem C5_obv_witness :
    calculate_obv [((1 : ℚ), (5 : ℚ)), (2, 7), (2, 3), (3, 4)]
        = [0, 7, 7, 11]
    ∧ List.Chain' (· ≤ ·)
        (calculate_obv [((1 : ℚ), (5 : ℚ)), (2, 7), (2, 3), (3, 4)]) := by
  have h := C5_obv [((1 : ℚ), (5 : ℚ)), (2, 7), (2, 3), (3, 4)] (by simp)
  refine ⟨?_, h.2.2 ?_ ?_⟩
  · norm_num [calculate_obv, obvFrom]
  · intro r hr
    fin_cases hr <;> norm_num
  · norm_num [List.chain'_cons, List.chain'_singleton]

/-- Pointwise evaluation of a rolling mean at an in-range index. -/
lemma rollingMean_getD (n : Nat) (xs : List ℚ) (i : Nat) (hi : i < xs.length) :
    (rollingMean n xs).getD i FVal.nan
      = if i + 1 < n then FVal.nan
        else FVal.num ((windowAt n xs i).sum / (n : ℚ)) := by
  have hlen : i < (rollingMean n xs).length := by
    simpa [rollingMean] using hi
  rw [List.getD_eq_getElem _ _ hlen]
  simp [rollingMean]

/-- Every element of a rolling window comes from the underlying series. -/
lemma windowAt_subset (n : Nat) (xs : List ℚ) (i : Nat) :
    ∀ x ∈ windowAt n xs i, x ∈ xs := by
  intro x hx
  exact List.take_subset _ _ (List.drop_subset _ _ hx)

/-- A rolling mean entry is NaN or finite — never an infinity. -/
lemma rollingMean_shape (n : Nat) (xs : List ℚ) (i : Nat) :
    (rollingMean n xs).getD i FVal.nan = FVal.nan
    ∨ ∃ q, (rollingMean n xs).getD i FVal.nan = FVal.num q := by
  by_cases hi : i < xs.length
  · rw [rollingMean_getD n xs i hi]
    by_cases h : i + 1 < n
    · left; rw [if_pos h]
    · right; exact ⟨_, by rw [if_neg h]⟩
  · left
    rw [List.getD_eq_default _ _ (by simp [rollingMean]; omega)]

/-- A defined rolling mean of a pointwise non-negative series is
non-negative. -/
lemma rollingMean_nonneg (n : Nat) (xs : List ℚ) (hx : ∀ x ∈ xs, 0 ≤ x)
    (i : Nat) (q : ℚ)
    (h : (rollingMean n xs).getD i FVal.nan = FVal.num q) : 0 ≤ q := by
  by_cases hi : i < xs.length
  · rw [rollingMean_getD n xs i hi] at h
    by_cases hn : i + 1 < n
    · rw [if_pos hn] at h
      exact absurd h (by simp)
    · rw [if_neg hn] at h
      have hq : (windowAt n xs i).sum / (n : ℚ) = q := by
        simpa using h
      have hs : 0 ≤ (windowAt n xs i).sum :=
        List.sum_nonneg fun x hx2 => hx x (windowAt_subset n xs i x hx2)
      rw [← hq]
      exact div_nonneg hs (by positivity)
  · rw [List.getD_eq_default _ _ (by simp [rollingMean]; omega)] at h
    exact absurd h (by simp)

/-- `Series.diff()`: NaN at index 0, the close-to-close change elsewhere. -/
def diffF (xs : List ℚ) : List FVal :=
  (List.range xs.length).map fun i =>
    if i = 0 then FVal.nan else FVal.num (xs.getD i 0 - xs.getD (i - 1) 0)

/-- `delta.where(delta > 0, 0)` (technical.py line 116): keep positive
changes, replace everything else — the leading NaN included, since
`NaN > 0` is false — with 0. -/
def gains (close : List ℚ) : List ℚ :=
  (diffF close).map fun d =>
    match d with
    | .num a => if 0 < a then a else 0
    | _ => 0

/-- `(-delta.where(delta < 0, 0))` (technical.py line 117): keep negative
changes (else 0), then negate, yielding the non-negative loss column. -/
def losses (close : List ℚ) : List ℚ :=
  (diffF close).map fun d =>
    match d with
    | .num a => if a < 0 then -a else 0
    | _ => 0

/-- `TechnicalIndicators.calculate_rsi` (technical.py lines 98-123): gain
and loss are `period`-rolling means of the split close changes,
`rs = gain / loss` and `rsi = 100 - 100 / (1 + rs)` under IEEE float
semantics — pandas raises nothing when the mean loss is zero. -/
def calculate_rsi (period : Nat) (close : List ℚ) : List FVal :=
  let gain := rollingMean period (gains close)
  let loss := rollingMean period (losses close)
  (List.range close.length).map fun i =>
    let rs := fdiv (gain.getD i FVal.nan) (loss.getD i FVal.nan)
    fsub (FVal.num 100) (fdiv (FVal.num 100) (fadd (FVal.num 1) rs))

/-- The gain column is pointwise non-negative. -/
lemma gains_nonneg (close : List ℚ) : ∀ x ∈ gains close, 0 ≤ x := by
  intro x hx
  obtain ⟨d, _, rfl⟩ := List.mem_map.mp hx
  cases d with
  | num a =>
      show (0 : ℚ) ≤ if 0 < a then a else 0
      by_cases h : 0 < a
      · rw [if_pos h]; linarith
      · rw [if_neg h]
  | nan => exact le_refl 0
  | pinf => exact le_refl 0
  | ninf => exact le_refl 0

/-- The loss column is pointwise non-negative. -/
lemma losses_nonneg (close : List ℚ) : ∀ x ∈ losses close, 0 ≤ x := by
  intro x hx
  obtain ⟨d, _, rfl⟩ := List.mem_map.mp hx
  cases d with
  | num a =>
      show (0 : ℚ) ≤ if a < 0 then -a else 0
      by_cases h : a < 0
      · rw [if_pos h]; linarith
      · rw [if_neg h]
  | nan => exact le_refl 0
  | pinf => exact le_refl 0
  | ninf => exact le_refl 0

/-- Counterexample to claim C2 as stated: on the flat series `[1, 1, 1]`
with period 2, the rolling mean loss at index 2 is zero, yet the RSI value
there is NaN (pandas evaluates `rs = 0/0 = NaN`), not 100. -/
theorem C2_counterexample :
    (rollingMean 2 (losses [(1 : ℚ), 1, 1])).getD 2 FVal.nan = FVal.num 0
    ∧ (calculate_rsi 2 [(1 : ℚ), 1, 1]).getD 2 FVal.nan = FVal.nan := by
  have hdiff : diffF [(1 : ℚ), 1, 1] = [FVal.nan, FVal.num 0, FVal.num 0] := by
    norm_num [diffF, List.range_succ]
  have hgain : gains [(1 : ℚ), 1, 1] = [0, 0, 0] := by
    rw [gains, hdiff]
    norm_num
  have hloss : losses [(1 : ℚ), 1, 1] = [0, 0, 0] := by
    rw [losses, hdiff]
    norm_num
  have hrm : rollingMean 2 [(0 : ℚ), 0, 0]
      = [FVal.nan, FVal.num 0, FVal.num 0] := by
    norm_num [rollingMean, List.range_succ, windowAt]
  constructor
  · rw [hloss, hrm]
    rfl
  · have hlen : 2 < (calculate_rsi 2 [(1 : ℚ), 1, 1]).length := by
      simp [calculate_rsi]
    rw [List.getD_eq_getElem _ _ hlen]
    simp only [calculate_rsi, List.getElem_map, List.getElem_range]
    rw [hgain, hloss, hrm]
    norm_num [fdiv, fadd, fsub, fneg]

/-- Claim C2 as amended: every defined (finite) RSI output lies in
`[0, 100]`; whenever the rolling mean loss is zero and the rolling mean
gain is positive, RSI is exactly 100; when the mean loss and the mean gain
are both zero, RSI is NaN — a missing value, not 100.  In every case the
zero division is absorbed by float semantics, never a runtime failure. -/
theorem C2_rsi_range (period : Nat) (close : List ℚ) (i : Nat) :
    (∀ v, (calculate_rsi period close).getD i FVal.nan = FVal.num v →
        0 ≤ v ∧ v ≤ 100)
    ∧ (∀ g, (rollingMean period (gains close)).getD i FVal.nan = FVal.num g →
        (rollingMean period (losses close)).getD i FVal.nan = FVal.num 0 →
        (0 < g → (calculate_rsi period close).getD i FVal.nan = FVal.num 100)
        ∧ (g = 0 → (calculate_rsi period close).getD i FVal.nan = FVal.nan)) := by
  by_cases hi : i < close.length
  · have hval : (calculate_rsi period close).getD i FVal.nan
        = fsub (FVal.num 100) (fdiv (FVal.num 100) (fadd (FVal.num 1)
            (fdiv ((rollingMean period (gains close)).getD i FVal.nan)
                  ((rollingMean period (losses close)).getD i FVal.nan)))) := by
      have hlen : i < (calculate_rsi period close).length := by
        simpa [calculate_rsi] using hi
      rw [List.getD_eq_getElem _ _ hlen]
      simp [calculate_rsi]
    rcases rollingMean_shape period (gains close) i with hg | ⟨g, hg⟩
    · have hnan : (calculate_rsi period close).getD i FVal.nan = FVal.nan := by
        rcases rollingMean_shape period (losses close) i with hl | ⟨l, hl⟩
        · rw [hval, hg, hl]; rfl
        · rw [hval, hg, hl]; rfl
      constructor
      · intro v hv
        rw [hnan] at hv
        exact absurd hv (by simp)
      · intro g2 hg2
        rw [hg] at hg2
        exact absurd hg2 (by simp)
    · rcases rollingMean_shape period (losses close) i with hl | ⟨l, hl⟩
      · have hnan : (calculate_rsi period close).getD i FVal.nan = FVal.nan := by
          rw [hval, hg, hl]; rfl
        constructor
        · intro v hv
          rw [hnan] at hv
          exact absurd hv (by simp)
        · intro g2 _ hl2
          rw [hl] at hl2
          exact absurd hl2 (by simp)
      · have hg0 : 0 ≤ g :=
          rollingMean_nonneg period (gains close) (gains_nonneg close) i g hg
        have hl0 : 0 ≤ l :=
          rollingMean_nonneg period (losses close) (losses_nonneg close) i l hl
        by_cases hlz : l = 0
        · by_cases hgz : g = 0
          · have hnan : (calculate_rsi period close).getD i FVal.nan
                = FVal.nan := by
              rw [hval, hg, hl, hlz, hgz]
              norm_num [fdiv, fadd, fsub, fneg]
            constructor
            · intro v hv
              rw [hnan] at hv
              exact absurd hv (by simp)
            · intro g2 hg2 _
              have hgg : g2 = g := by
                rw [hg] at hg2
                exact ((FVal.num.injEq _ _).mp hg2).symm
              constructor
              · intro hpos
                rw [hgg, hgz] at hpos
                exact absurd hpos (lt_irrefl 0)
              · intro _
                exact hnan
          · have hgpos : 0 < g := lt_of_le_of_ne hg0 (Ne.symm hgz)
            have h100 : (calculate_rsi period close).getD i FVal.nan
                = FVal.num 100 := by
              rw [hval, hg, hl, hlz]
              norm_num [fdiv, fadd, fsub, fneg, hgpos]
            constructor
            · intro v hv
              rw [h100] at hv
              have : (100 : ℚ) = v := (FVal.num.injEq _ _).mp hv
              rw [← this]
              norm_num
            · intro g2 hg2 _
              have hgg : g2 = g := by
                rw [hg] at hg2
                exact ((FVal.num.injEq _ _).mp hg2).symm
              constructor
              · intro _
                exact h100
              · intro hz
                rw [hgg] at hz
                exact absurd hz hgz
        · have hlpos : 0 < l := lt_of_le_of_ne hl0 (Ne.symm hlz)
          have hrs0 : 0 ≤ g / l := div_nonneg hg0 (le_of_lt hlpos)
          have hden : (1 : ℚ) + g / l ≠ 0 := by linarith
          have hfin : (calculate_rsi period close).getD i FVal.nan
              = FVal.num (100 - 100 / (1 + g / l)) := by
            rw [hval, hg, hl]
            simp only [fdiv, fadd, fsub, fneg, if_neg hlz, if_neg hden]
            rw [sub_eq_add_neg]
          constructor
          · intro v hv
            rw [hfin] at hv
            have hvv : 100 - 100 / (1 + g / l) = v :=
              (FVal.num.injEq _ _).mp hv
            have hx1 : (1 : ℚ) ≤ 1 + g / l := by linarith
            have hle : 100 / (1 + g / l) ≤ 100 :=
              div_le_self (by norm_num) hx1
            have hpos : 0 < 100 / (1 + g / l) :=
              div_pos (by norm_num) (by linarith)
            constructor <;> rw [← hvv] <;> linarith
          · intro g2 _ hl2
            rw [hl] at hl2
            have : l = 0 := (FVal.num.injEq _ _).mp hl2
            exact absurd this hlz
  · have hnan : (calculate_rsi period close).getD i FVal.nan = FVal.nan := by
      rw [List.getD_eq_default _ _ (by simp [calculate_rsi]; omega)]
    have hgnan : (rollingMean period (gains close)).getD i FVal.nan
        = FVal.nan := by
      rw [List.getD_eq_default _ _
        (by simp [rollingMean, gains, losses, diffF]; omega)]
    constructor
    · intro v hv
      rw [hnan] at hv
      exact absurd hv (by simp)
    · intro g2 hg2
      rw [hgnan] at hg2
      exact absurd hg2 (by simp)

/-- Witness for C2 (amended): on `close = [1, 2, 1]` with period 2 the RSI
at index 2 is the finite value 50, which the theorem places in
`[0, 100]`. -/
theorem C2_rsi_range_witness : (0 : ℚ) ≤ 50 ∧ (50 : ℚ) ≤ 100 := by
  have hdiff : diffF [(1 : ℚ), 2, 1]
      = [FVal.nan, FVal.num 1, FVal.num (-1)] := by
    norm_num [diffF, List.range_succ]
  have hgain : gains [(1 : ℚ), 2, 1] = [0, 1, 0] := by
    rw [gains, hdiff]
    norm_num
  have hloss : losses [(1 : ℚ), 2, 1] = [0, 0, 1] := by
    rw [losses, hdiff]
    norm_num
  have hrmg : rollingMean 2 [(0 : ℚ), 1, 0]
      = [FVal.nan, FVal.num (1 / 2), FVal.num (1 / 2)] := by
    norm_num [rollingMean, List.range_succ, windowAt]
  have hrml : rollingMean 2 [(0 : ℚ), 0, 1]
      = [FVal.nan, FVal.num 0, FVal.num (1 / 2)] := by
    norm_num [rollingMean, List.range_succ, windowAt]
  have heval : (calculate_rsi 2 [(1 : ℚ), 2, 1]).getD 2 FVal.nan
      = FVal.num 50 := by
    have hlen : 2 < (calculate_rsi 2 [(1 : ℚ), 2, 1]).length := by
      simp [calculate_rsi]
    rw [List.getD_eq_getElem _ _ hlen]
    simp only [calculate_rsi, List.getElem_map, List.getElem_range]
    rw [hgain, hloss, hrmg, hrml]
    norm_num [fdiv, fadd, fsub, fneg]
  exact (C2_rsi_range 2 [(1 : ℚ), 2, 1] 2).1 50 heval

/-- Smoothing factor of `Series.ewm(com=c)`: `alpha = 1 / (1 + com)`. -/
def comAlpha (com : ℚ) : ℚ := 1 / (1 + com)

/-- One step of the pandas exponentially weighted mean with `adjust=False`
and `ignore_na=False` (the defaults, as used throughout technical.py).  The
state is (running weighted average — NaN before the first observation —,
relative weight of that average).  A NaN input is not an observation: it
decays the old weight and leaves the average in place, so the output at a
NaN index repeats the running average rather than becoming missing. -/
def ewmStep (α : ℚ) (st : FVal × ℚ) (x : FVal) : FVal × ℚ :=
  match st with
  | (avg, w) =>
      if avg = FVal.nan then (if x = FVal.nan then (avg, w) else (x, w))
      else
        let wd := w * (1 - α)
        if x = FVal.nan then (avg, wd)
        else if avg = x then (avg, 1)
        else (fdiv (fadd (fmul (FVal.num wd) avg) (fmul (FVal.num α) x))
                   (FVal.num (wd + α)), 1)

/-- Scan emitting the running ewm average after every input. -/
def ewmScan (α : ℚ) : FVal × ℚ → List FVal → List FVal
  | _, [] => []
  | st, x :: rest =>
      let st2 := ewmStep α st x
      st2.1 :: ewmScan α st2 rest

/-- `Series.ewm(com=..., adjust=False).mean()`. -/
def ewmMean (α : ℚ) (xs : List FVal) : List FVal :=
  ewmScan α (FVal.nan, 1) xs

/-- The RSV series of `calculate_kdj` (technical.py lines 139-141):
`(close - low.rolling(n).min())
  / (high.rolling(n).max() - low.rolling(n).min()) * 100`. -/
def rsvList (n : Nat) (high low close : List ℚ) : List FVal :=
  (List.range close.length).map fun i =>
    fmul (fdiv (fsub (FVal.num (close.getD i 0))
                     ((rollingMin n low).getD i FVal.nan))
               (fsub ((rollingMax n high).getD i FVal.nan)
                     ((rollingMin n low).getD i FVal.nan)))
         (FVal.num 100)

/-- `TechnicalIndicators.calculate_kdj` (technical.py lines 125-148) with
KDJ parameters (n, m1, m2): K is the `com = m1 - 1` exponentially weighted
mean of RSV, D is the `com = m2 - 1` one of K, and `J = 3K − 2D`. -/
def calculate_kdj (n m1 m2 : Nat) (high low close : List ℚ) :
    List FVal × List FVal × List FVal :=
  let rsv := rsvList n high low close
  let k := ewmMean (comAlpha ((m1 : ℚ) - 1)) rsv
  let d := ewmMean (comAlpha ((m2 : ℚ) - 1)) k
  let j := (List.range close.length).map fun i =>
    fsub (fmul (FVal.num 3) (k.getD i FVal.nan))
         (fmul (FVal.num 2) (d.getD i FVal.nan))
  (k, d, j)

/-- The ewm scan emits one output per input. -/
lemma ewmScan_length (α : ℚ) (st : FVal × ℚ) (xs : List FVal) :
    (ewmScan α st xs).length = xs.length := by
  induction xs generalizing st with
  | nil => rfl
  | cons x rest ih => simp [ewmScan, ih]

/-- One ewm step from a NaN-or-finite state on a NaN-or-finite input: the
weight stays non-negative, the average becomes NaN exactly when both the
state and the input were NaN, and the average stays NaN-or-finite. -/
lemma ewmStep_nan (α : ℚ) (hα0 : 0 < α) (hα1 : α ≤ 1) (st : FVal × ℚ)
    (hw : 0 ≤ st.2) (hst : st.1 = FVal.nan ∨ ∃ q, st.1 = FVal.num q)
    (x : FVal) (hx : x = FVal.nan ∨ ∃ q, x = FVal.num q) :
    0 ≤ (ewmStep α st x).2
    ∧ ((ewmStep α st x).1 = FVal.nan ↔ (st.1 = FVal.nan ∧ x = FVal.nan))
    ∧ ((ewmStep α st x).1 = FVal.nan ∨ ∃ q, (ewmStep α st x).1 = FVal.num q) := by
  obtain ⟨avg, w⟩ := st
  simp only at hw hst
  rcases hst with havg | ⟨a, havg⟩
  · subst havg
    by_cases hxn : x = FVal.nan
    · subst hxn
      simp [ewmStep, hw]
    · rcases hx with h | ⟨q, hq⟩
      · exact absurd h hxn
      · subst hq
        simp [ewmStep, hw]
  · subst havg
    by_cases hxn : x = FVal.nan
    · subst hxn
      have hwd : 0 ≤ w * (1 - α) := mul_nonneg hw (by linarith)
      simp [ewmStep, hwd]
    · rcases hx with h | ⟨q, hq⟩
      · exact absurd h hxn
      · subst hq
        by_cases heq : FVal.num a = FVal.num q
        · simp [ewmStep, heq]
        · have hwd : 0 ≤ w * (1 - α) := mul_nonneg hw (by linarith)
          have hden : w * (1 - α) + α ≠ 0 := by positivity
          simp only [ewmStep]
          rw [if_neg (by simp), if_neg (by simp), if_neg heq]
          refine ⟨zero_le_one, ?_, ?_⟩
          · simp only [fmul, fadd, fdiv, if_neg hden]
            simp
          · right
            simp only [fmul, fadd, fdiv, if_neg hden]
            exact ⟨_, rfl⟩

/-- Characterisation of missing ewm outputs on NaN-or-finite inputs: the
output at index `i` is NaN exactly when the incoming state was NaN and every
input up to `i` is NaN. -/
lemma ewmScan_nan (α : ℚ) (hα0 : 0 < α) (hα1 : α ≤ 1) :
    ∀ (xs : List FVal), (∀ x ∈ xs, x = FVal.nan ∨ ∃ q, x = FVal.num q) →
    ∀ (st : FVal × ℚ), 0 ≤ st.2 →
      (st.1 = FVal.nan ∨ ∃ q, st.1 = FVal.num q) →
    ∀ i, i < xs.length →
      ((ewmScan α st xs).getD i FVal.nan = FVal.nan
        ↔ (st.1 = FVal.nan ∧ ∀ j, j ≤ i → xs.getD j FVal.nan = FVal.nan)) := by
  intro xs
  induction xs with
  | nil =>
      intro _ st _ _ i hi
      simp at hi
  | cons x rest ih =>
      intro hx st hw hst i hi
      have hxh := hx x (List.mem_cons_self _ _)
      have hstep := ewmStep_nan α hα0 hα1 st hw hst x hxh
      cases i with
      | zero =>
          simp only [ewmScan, List.getD_cons_zero]
          rw [hstep.2.1]
          constructor
          · rintro ⟨h1, h2⟩
            refine ⟨h1, fun j hj => ?_⟩
            have hj0 : j = 0 := Nat.le_zero.mp hj
            subst hj0
            simpa using h2
          · rintro ⟨h1, h2⟩
            exact ⟨h1, by simpa using h2 0 (le_refl 0)⟩
      | succ i =>
          simp only [ewmScan, List.getD_cons_succ]
          have hrest := ih (fun y hy => hx y (List.mem_cons_of_mem _ hy))
            (ewmStep α st x) hstep.1 hstep.2.2 i (by simpa using hi)
          rw [hrest, hstep.2.1]
          constructor
          · rintro ⟨⟨h1, h2⟩, h3⟩
            refine ⟨h1, fun j hj => ?_⟩
            cases j with
            | zero => simpa using h2
            | succ j => simpa using h3 j (by omega)
          · rintro ⟨h1, h2⟩
            refine ⟨⟨h1, by simpa using h2 0 (by omega)⟩, fun j hj => ?_⟩
            simpa using h2 (j + 1) (by omega)

/-- Pointwise evaluation of a rolling minimum at an in-range index. -/
lemma rollingMin_getD (n : Nat) (xs : List ℚ) (i : Nat) (hi : i < xs.length) :
    (rollingMin n xs).getD i FVal.nan
      = if i + 1 < n then FVal.nan
        else FVal.num (listMin (windowAt n xs i)) := by
  have hlen : i < (rollingMin n xs).length := by
    simpa [rollingMin] using hi
  rw [List.getD_eq_getElem _ _ hlen]
  simp [rollingMin]

/-- Pointwise evaluation of a rolling maximum at an in-range index. -/
lemma rollingMax_getD (n : Nat) (xs : List ℚ) (i : Nat) (hi : i < xs.length) :
    (rollingMax n xs).getD i FVal.nan
      = if i + 1 < n then FVal.nan
        else FVal.num (listMax (windowAt n xs i)) := by
  have hlen : i < (rollingMax n xs).length := by
    simpa [rollingMax] using hi
  rw [List.getD_eq_getElem _ _ hlen]
  simp [rollingMax]

/-- The current record belongs to its own trailing window. -/
lemma getD_mem_windowAt (n : Nat) (xs : List ℚ) (i : Nat) (hn : 1 ≤ n)
    (hi : i < xs.length) : xs.getD i 0 ∈ windowAt n xs i := by
  have hlt : i - (i + 1 - n) < ((xs.take (i + 1)).drop (i + 1 - n)).length := by
    simp only [List.length_drop, List.length_take]
    omega
  have hig : ((xs.take (i + 1)).drop (i + 1 - n)).get ⟨i - (i + 1 - n), hlt⟩
      = xs.getD i 0 := by
    simp only [List.get_eq_getElem]
    rw [List.getElem_drop, List.getElem_take]
    have hidx : (i + 1 - n) + (i - (i + 1 - n)) = i := by omega
    simp only [hidx]
    rw [List.getD_eq_getElem _ _ hi]
  rw [windowAt, ← hig]
  exact List.get_mem _ _ _

/-- `listMin` bounds every member of the list from below. -/
lemma listMin_le : ∀ (t : List ℚ) (b a : ℚ), a ∈ b :: t →
    t.foldl min b ≤ a := by
  intro t
  induction t with
  | nil =>
      intro b a h
      have : a = b := by simpa using h
      subst this
      exact le_refl a
  | cons c t ih =>
      intro b a h
      rcases List.mem_cons.mp h with h1 | h2
      · subst h1
        exact le_trans (ih (min a c) (min a c) (List.mem_cons_self _ _))
          (min_le_left a c)
      · rcases List.mem_cons.mp h2 with h1 | h3
        · subst h1
          exact le_trans (ih (min b a) (min b a) (List.mem_cons_self _ _))
            (min_le_right b a)
        · exact ih (min b c) a (List.mem_cons_of_mem _ h3)

/-- `listMax` bounds every member of the list from above. -/
lemma le_listMax : ∀ (t : List ℚ) (b a : ℚ), a ∈ b :: t →
    a ≤ t.foldl max b := by
  intro t
  induction t with
  | nil =>
      intro b a h
      have : a = b := by simpa using h
      subst this
      exact le_refl a
  | cons c t ih =>
      intro b a h
      rcases List.mem_cons.mp h with h1 | h2
      · subst h1
        exact le_trans (le_max_left a c)
          (ih (max a c) (max a c) (List.mem_cons_self _ _))
      · rcases List.mem_cons.mp h2 with h1 | h3
        · subst h1
          exact le_trans (le_max_right b a)
            (ih (max b a) (max b a) (List.mem_cons_self _ _))
        · exact ih (max b c) a (List.mem_cons_of_mem _ h3)

/-- `listMin` of a nonempty list bounds its members from below. -/
lemma listMin_le_of_mem {l : List ℚ} {a : ℚ} (h : a ∈ l) : listMin l ≤ a := by
  cases l with
  | nil => exact absurd h (List.not_mem_nil a)
  | cons b t => exact listMin_le t b a h

/-- `listMax` of a nonempty list bounds its members from above. -/
lemma le_listMax_of_mem {l : List ℚ} {a : ℚ} (h : a ∈ l) : a ≤ listMax l := by
  cases l with
  | nil => exact absurd h (List.not_mem_nil a)
  | cons b t => exact le_listMax t b a h

/-- NaN absorbs subtraction on the right. -/
lemma fsub_nan_right (x : FVal) : fsub x FVal.nan = FVal.nan := by
  cases x <;> rfl

/-- NaN absorbs division on the left. -/
lemma fdiv_nan_left (x : FVal) : fdiv FVal.nan x = FVal.nan := by
  cases x <;> rfl

/-- NaN absorbs multiplication on the left. -/
lemma fmul_nan_left (x : FVal) : fmul FVal.nan x = FVal.nan := by
  cases x <;> rfl

/-- Finite subtraction is exact. -/
lemma fsub_num_num (a b : ℚ) :
    fsub (FVal.num a) (FVal.num b) = FVal.num (a - b) := by
  simp [fsub, fadd, fneg, sub_eq_add_neg]

/-- Finite division with a nonzero divisor is exact. -/
lemma fdiv_num_num (a b : ℚ) (hb : b ≠ 0) :
    fdiv (FVal.num a) (FVal.num b) = FVal.num (a / b) := by
  simp [fdiv, hb]

/-- Finite multiplication is exact. -/
lemma fmul_num_num (a b : ℚ) :
    fmul (FVal.num a) (FVal.num b) = FVal.num (a * b) := rfl

/-- Finite difference of equal floats vanishes. -/
lemma fsub_self_num (a : ℚ) : fsub (FVal.num a) (FVal.num a) = FVal.num 0 := by
  simp [fsub, fadd, fneg]

/-- The IEEE quotient 0/0 is NaN: the zero-range RSV division degrades to a
missing value rather than raising. -/
lemma fdiv_zero_zero : fdiv (FVal.num 0) (FVal.num 0) = FVal.nan := by
  norm_num [fdiv]

/-- Pointwise evaluation of the RSV column at an in-range index. -/
lemma rsvList_getD (n : Nat) (high low close : List ℚ) (i : Nat)
    (hi : i < close.length) :
    (rsvList n high low close).getD i FVal.nan
      = fmul (fdiv (fsub (FVal.num (close.getD i 0))
                         ((rollingMin n low).getD i FVal.nan))
                   (fsub ((rollingMax n high).getD i FVal.nan)
                         ((rollingMin n low).getD i FVal.nan)))
             (FVal.num 100) := by
  have hlen : i < (rsvList n high low close).length := by
    simpa [rsvList] using hi
  rw [List.getD_eq_getElem _ _ hlen]
  simp [rsvList]

/-- On a valid price series (lows below closes below highs, columns of equal
length) every RSV entry is NaN or finite — the zero-range case collapses to
`0 / 0 = NaN` because the close is then pinned to the window bound, so no
infinity can arise. -/
lemma rsvList_shape (n : Nat) (high low close : List ℚ) (hn : 1 ≤ n)
    (hlenh : high.length = close.length) (hlenl : low.length = close.length)
    (hvalid : ∀ j, j < close.length →
        low.getD j 0 ≤ close.getD j 0 ∧ close.getD j 0 ≤ high.getD j 0) :
    ∀ x ∈ rsvList n high low close,
      x = FVal.nan ∨ ∃ q, x = FVal.num q := by
  intro x hx
  unfold rsvList at hx
  obtain ⟨i, hir, rfl⟩ := List.mem_map.mp hx
  have hi : i < close.length := List.mem_range.mp hir
  have hil : i < low.length := by omega
  have hih : i < high.length := by omega
  by_cases hwin : i + 1 < n
  · left
    rw [rollingMin_getD n low i hil, if_pos hwin]
    simp only [fsub_nan_right, fdiv_nan_left, fmul_nan_left]
  · rw [rollingMin_getD n low i hil, rollingMax_getD n high i hih,
      if_neg hwin, if_neg hwin]
    by_cases hz : listMax (windowAt n high i) - listMin (windowAt n low i) = 0
    · left
      have hle1 : listMin (windowAt n low i) ≤ low.getD i 0 :=
        listMin_le_of_mem (getD_mem_windowAt n low i hn hil)
      have hle2 : high.getD i 0 ≤ listMax (windowAt n high i) :=
        le_listMax_of_mem (getD_mem_windowAt n high i hn hih)
      have hv := hvalid i hi
      have hc : close.getD i 0 = listMin (windowAt n low i) := by
        linarith [hv.1, hv.2]
      have hz2 : listMax (windowAt n high i) = listMin (windowAt n low i) := by
        linarith
      rw [hc, fsub_self_num, hz2, fsub_self_num, fdiv_zero_zero]
      exact fmul_nan_left _
    · right
      rw [fsub_num_num, fsub_num_num, fdiv_num_num _ _ hz, fmul_num_num]
      exact ⟨_, rfl⟩

/-- Counterexample to claim C7 as stated: with KDJ parameters `(2, 3, 3)` on
the valid price series `high = low = close = [1, 2, 2]`, the window ending
at index 2 has zero high/low range, yet the K output there is the carried
value 100 — not a missing/sentinel value — because pandas `ewm` repeats the
running average over a NaN input. -/
theorem C7_counterexample :
    listMax (windowAt 2 [(1 : ℚ), 2, 2] 2)
      = listMin (windowAt 2 [(1 : ℚ), 2, 2] 2)
    ∧ (calculate_kdj 2 3 3 [(1 : ℚ), 2, 2] [(1 : ℚ), 2, 2]
        [(1 : ℚ), 2, 2]).1.getD 2 FVal.nan = FVal.num 100 := by
  have hmin : rollingMin 2 [(1 : ℚ), 2, 2]
      = [FVal.nan, FVal.num 1, FVal.num 2] := by
    norm_num [rollingMin, List.range_succ, windowAt, listMin, min_def]
  have hmax : rollingMax 2 [(1 : ℚ), 2, 2]
      = [FVal.nan, FVal.num 2, FVal.num 2] := by
    norm_num [rollingMax, List.range_succ, windowAt, listMax, max_def]
  have hrsv : rsvList 2 [(1 : ℚ), 2, 2] [(1 : ℚ), 2, 2] [(1 : ℚ), 2, 2]
      = [FVal.nan, FVal.num 100, FVal.nan] := by
    rw [rsvList, hmin, hmax]
    norm_num [List.range_succ, fsub, fadd, fneg, fdiv, fmul]
  have hk : (calculate_kdj 2 3 3 [(1 : ℚ), 2, 2] [(1 : ℚ), 2, 2]
      [(1 : ℚ), 2, 2]).1 = [FVal.nan, FVal.num 100, FVal.num 100] := by
    show ewmMean (comAlpha (((3 : Nat) : ℚ) - 1))
        (rsvList 2 [(1 : ℚ), 2, 2] [(1 : ℚ), 2, 2] [(1 : ℚ), 2, 2]) = _
    rw [hrsv]
    simp only [ewmMean, ewmScan, ewmStep]
    decide
  constructor
  · norm_num [windowAt, listMin, listMax, min_def, max_def]
  · rw [hk]
    rfl

/-- Claim C7 as amended: on a valid price series, a window whose rolling max
high equals its rolling min low produces an undefined (NaN) RSV entry —
the zero division is absorbed as a missing value, and the computation runs
to completion (full-length output columns) with no runtime failure; the
smoothed K output at such an index, however, is missing if and only if no
window up to that index produced a defined RSV — otherwise it carries the
previously smoothed value forward. -/
theorem C7_kdj_zero_range (n m1 m2 : Nat) (high low close : List ℚ)
    (hn : 1 ≤ n) (hm1 : 1 ≤ m1)
    (hlenh : high.length = close.length) (hlenl : low.length = close.length)
    (hvalid : ∀ j, j < close.length →
        low.getD j 0 ≤ close.getD j 0 ∧ close.getD j 0 ≤ high.getD j 0)
    (i : Nat) (hi : i < close.length) (hwin : n ≤ i + 1)
    (hflat : listMax (windowAt n high i) = listMin (windowAt n low i)) :
    (rsvList n high low close).getD i FVal.nan = FVal.nan
    ∧ (calculate_kdj n m1 m2 high low close).1.length = close.length
    ∧ ((calculate_kdj n m1 m2 high low close).1.getD i FVal.nan = FVal.nan
        ↔ ∀ j, j ≤ i → (rsvList n high low close).getD j FVal.nan
            = FVal.nan) := by
  have hil : i < low.length := by omega
  have hih : i < high.length := by omega
  have hnwin : ¬ i + 1 < n := by omega
  have hr : (rsvList n high low close).getD i FVal.nan = FVal.nan := by
    rw [rsvList_getD n high low close i hi,
      rollingMin_getD n low i hil, rollingMax_getD n high i hih,
      if_neg hnwin, if_neg hnwin]
    have hle1 : listMin (windowAt n low i) ≤ low.getD i 0 :=
      listMin_le_of_mem (getD_mem_windowAt n low i hn hil)
    have hle2 : high.getD i 0 ≤ listMax (windowAt n high i) :=
      le_listMax_of_mem (getD_mem_windowAt n high i hn hih)
    have hv := hvalid i hi
    have hc : close.getD i 0 = listMin (windowAt n low i) := by
      linarith [hle1, hle2, hv.1, hv.2, hflat]
    rw [hc, fsub_self_num, hflat, fsub_self_num, fdiv_zero_zero]
    exact fmul_nan_left _
  have hk1 : (calculate_kdj n m1 m2 high low close).1
      = ewmMean (comAlpha ((m1 : ℚ) - 1)) (rsvList n high low close) := rfl
  have hm1q : (1 : ℚ) ≤ (m1 : ℚ) := by exact_mod_cast hm1
  have hsum : (1 : ℚ) + ((m1 : ℚ) - 1) = (m1 : ℚ) := by ring
  have hα0 : 0 < comAlpha ((m1 : ℚ) - 1) := by
    unfold comAlpha
    rw [hsum]
    exact div_pos one_pos (by linarith)
  have hα1 : comAlpha ((m1 : ℚ) - 1) ≤ 1 := by
    unfold comAlpha
    rw [hsum, div_le_one (by linarith)]
    exact hm1q
  have hshape := rsvList_shape n high low close hn hlenh hlenl hvalid
  have hlenr : i < (rsvList n high low close).length := by
    simpa [rsvList] using hi
  have hiff := ewmScan_nan (comAlpha ((m1 : ℚ) - 1)) hα0 hα1
    (rsvList n high low close) hshape (FVal.nan, 1) (by norm_num)
    (Or.inl rfl) i hlenr
  refine ⟨hr, ?_, ?_⟩
  · rw [hk1]
    simp only [ewmMean]
    rw [ewmScan_length]
    simp [rsvList]
  · rw [hk1]
    simp only [ewmMean]
    rw [hiff]
    simp

/-- Witness for C7 (amended) at the concrete series of the counterexample:
the RSV at the flat window (index 2) is missing, the K column runs to full
length 3, and K at index 2 is non-missing exactly because an earlier window
(index 1) produced a defined RSV. -/
theorem C7_kdj_zero_range_witness :
    (rsvList 2 [(1 : ℚ), 2, 2] [(1 : ℚ), 2, 2] [(1 : ℚ), 2, 2]).getD 2
        FVal.nan = FVal.nan
    ∧ (calculate_kdj 2 3 3 [(1 : ℚ), 2, 2] [(1 : ℚ), 2, 2]
        [(1 : ℚ), 2, 2]).1.length = 3
    ∧ ((calculate_kdj 2 3 3 [(1 : ℚ), 2, 2] [(1 : ℚ), 2, 2]
          [(1 : ℚ), 2, 2]).1.getD 2 FVal.nan = FVal.nan
        ↔ ∀ j, j ≤ 2 → (rsvList 2 [(1 : ℚ), 2, 2] [(1 : ℚ), 2, 2]
            [(1 : ℚ), 2, 2]).getD j FVal.nan = FVal.nan) := by
  have h := C7_kdj_zero_range 2 3 3 [(1 : ℚ), 2, 2] [(1 : ℚ), 2, 2]
    [(1 : ℚ), 2, 2] (by norm_num) (by norm_num) (by norm_num) (by norm_num)
    (by intro j hj
        simp only [List.length_cons, List.length_nil] at hj
        interval_cases j <;>
          norm_num [List.getD_cons_zero, List.getD_cons_succ])
    2 (by norm_num) (by norm_num)
    (by norm_num [windowAt, listMin, listMax, min_def, max_def])
  exact ⟨h.1, by rw [h.2.1]; rfl, h.2.2⟩

end MyStock
